import Mathlib

/-!
Shallow embedding of the `yaptools` utility library (Python 3), covering
`alphanum_sort` / `_alphanum_key`, `pool_transform`, `onetimemethod`,
`lazyproperty` (from `yaptools/_utils.py`) and `Logger.log`
(from `yaptools/logger/_logger.py`), together with theorems settling the
specification claims about them.

Python's dynamic failure modes are made explicit: fallible operations return
`Except PyError`, and the dynamically typed argument of `alphanum_sort` is
modelled by the `PyVal` type.
-/

/-- The Python exception kinds raised by the embedded code. -/
inductive PyError where
  | typeErr
  | valueErr
  | indexErr
  | runtimeErr
deriving DecidableEq, Repr

/-- A Python runtime value, as far as `alphanum_sort`'s argument checking
(`check_type_validity(string_list, list, ...)` and the per-element
`isinstance(string, str)` test) needs to distinguish values. -/
inductive PyVal where
  | str (s : String)
  | int (n : Int)
  | list (l : List PyVal)
  | none
  | other
deriving Repr

/-- One component of an alphanum sort key: `_alphanum_key` produces a Python
list whose entries are either strings or ints. -/
inductive Seg where
  | s (v : String)
  | n (v : Nat)
deriving DecidableEq, Repr

/-- Three-way comparison of naturals (Python `int` comparison on the
non-negative values produced by `int(<digit run>)`). -/
def natCmp (a b : Nat) : Ordering :=
  if a < b then .lt else if b < a then .gt else .eq

/-- Python compares characters of a `str` by Unicode code point. -/
def charCmp (a b : Char) : Ordering :=
  natCmp a.toNat b.toNat

/-- Lexicographic comparison of lists, deciding at the first position where
the elements differ; a strict prefix compares below the longer list.  This is
Python's sequence comparison for same-typed elements. -/
def lexCmp (cmp : α → α → Ordering) : List α → List α → Ordering
  | [], [] => .eq
  | [], _ :: _ => .lt
  | _ :: _, [] => .gt
  | x :: xs, y :: ys =>
    match cmp x y with
    | .eq => lexCmp cmp xs ys
    | o => o

/-- Python `str` comparison: lexicographic by code point. -/
def strCmp (a b : String) : Ordering :=
  lexCmp charCmp a.data b.data

/-- Comparison of two sort-key segments.  Python 3 refuses to order an `int`
against a `str` (`TypeError`), which is the `.error` case. -/
def segCmp : Seg → Seg → Except PyError Ordering
  | .s a, .s b => .ok (strCmp a b)
  | .n a, .n b => .ok (natCmp a b)
  | _, _ => .error .typeErr

/-- Python list comparison for sort keys: scan for the first position where
the entries are not equal (an `int` never equals a `str`), order by that
position (raising `TypeError` if its entries are an `int` and a `str`),
and fall back to comparing lengths when one list is a prefix of the other. -/
def keyCmp : List Seg → List Seg → Except PyError Ordering
  | [], [] => .ok .eq
  | [], _ :: _ => .ok .lt
  | _ :: _, [] => .ok .gt
  | x :: xs, y :: ys =>
    match segCmp x y with
    | .error e => .error e
    | .ok .eq => keyCmp xs ys
    | .ok o => .ok o

/-- Prepend a character to a decomposition of the rest of the string into
maximal runs of same-class (digit / non-digit) characters. -/
def addToRuns (c : Char) : List (List Char) → List (List Char)
  | [] => [[c]]
  | [] :: rs => [c] :: rs
  | (d :: r) :: rs =>
    if c.isDigit == d.isDigit then (c :: d :: r) :: rs else [c] :: (d :: r) :: rs

/-- Decompose a character list into its maximal runs of digit and of
non-digit characters, in order. -/
def runs : List Char → List (List Char)
  | [] => []
  | c :: cs => addToRuns c (runs cs)

/-- `re.split('([0-9]+)', string)`: the pieces alternate (possibly empty)
non-digit text and maximal digit runs, starting and ending with text.  On the
maximal-run decomposition this means: prepend an empty text piece when the
string starts with a digit, append one when it ends with a digit (interior
empties cannot occur, runs being maximal). -/
def reSplitDigits (l : List Char) : List (List Char) :=
  match l with
  | [] => [[]]
  | c :: _ =>
    (if c.isDigit then [[]] else []) ++ runs l ++
      (match l.getLast? with
       | some d => if d.isDigit then [[]] else []
       | Option.none => [])

/-- Python `int` applied to a non-empty decimal digit run. -/
def natOfDigits (l : List Char) : Nat :=
  l.foldl (fun a c => 10 * a + (c.toNat - 48)) 0

/-- `_alphanum_key(string)` (lines 32-38 of `_utils.py`):
`parity = int(string[0] in '0123456789')` raises `IndexError` on the empty
string; otherwise the pieces of `re.split('([0-9]+)', string)[parity:]` are
converted positionally, `int(x) if i % 2 != parity else x`. -/
def alphanum_key (string : String) : Except PyError (List Seg) :=
  match string.data with
  | [] => .error .indexErr
  | c :: cs =>
    let parity : Nat := if c.isDigit then 1 else 0
    .ok ((((reSplitDigits (c :: cs)).drop parity).enum).map
      (fun ix => if ix.1 % 2 ≠ parity then Seg.n (natOfDigits ix.2) else Seg.s (String.mk ix.2)))

/-- Comparison of two strings by their alphanum keys, as performed between
`sorted`'s precomputed keys. -/
def alphanumCmp (a b : String) : Except PyError Ordering :=
  match alphanum_key a, alphanum_key b with
  | .ok ka, .ok kb => keyCmp ka kb
  | .error e, _ => .error e
  | _, .error e => .error e

/-- Extract the underlying `str`, if the value is one. -/
def pyStr? : PyVal → Option String
  | .str s => some s
  | _ => Option.none

/-- `all(isinstance(string, str) for string in string_list)`: extract the
strings, failing on the first non-string element. -/
def pyStrList? : List PyVal → Option (List String)
  | [] => some []
  | v :: vs =>
    match pyStr? v with
    | Option.none => Option.none
    | some s =>
      match pyStrList? vs with
      | Option.none => Option.none
      | some ss => some (s :: ss)

/-- `sorted(..., key=_alphanum_key)` computes the key of every element, in
input order, before any comparison; the first failure propagates. -/
def mapKeysE : List String → Except PyError (List (List Seg))
  | [] => .ok []
  | s :: rest =>
    match alphanum_key s with
    | .error e => .error e
    | .ok k =>
      match mapKeysE rest with
      | .error e => .error e
      | .ok ks => .ok (k :: ks)

/-- Stable insertion of a string into an already-sorted list, by alphanum
key: the element is placed before the first strictly greater element (and
before equal-keyed ones, preserving input order, as Python's stable sort
does); a failing key comparison propagates. -/
def insertE (x : String) : List String → Except PyError (List String)
  | [] => .ok [x]
  | y :: ys =>
    match alphanumCmp x y with
    | .error e => .error e
    | .ok .gt => (insertE x ys).map (fun zs => y :: zs)
    | .ok _ => .ok (x :: y :: ys)

/-- Stable sort by alphanum key.  Python's `sorted` is a stable sort driven
by `<` on the keys; for a consistently ordered input it returns the unique
stable sorting, which this insertion sort also computes, and it raises
whenever ordering the elements forces an `int`-vs-`str` key comparison,
as this model does. -/
def sortE : List String → Except PyError (List String)
  | [] => .ok []
  | x :: xs =>
    match sortE xs with
    | .error e => .error e
    | .ok ys => insertE x ys

/-- `alphanum_sort(string_list)` (lines 17-29 of `_utils.py`):
`check_type_validity(string_list, list, ...)` rejects non-lists with
`TypeError`; a list containing a non-string raises `TypeError`; then
`sorted(string_list, key=_alphanum_key)` computes every key (raising
`IndexError` on an empty string) and sorts (raising `TypeError` when keys of
digit-leading and non-digit-leading strings meet in a comparison). -/
def alphanum_sort (string_list : PyVal) : Except PyError PyVal :=
  match string_list with
  | .list l =>
    match pyStrList? l with
    | Option.none => .error .typeErr
    | some strs =>
      match mapKeysE strs with
      | .error e => .error e
      | .ok _ =>
        match sortE strs with
        | .error e => .error e
        | .ok out => .ok (.list (out.map PyVal.str))
  | _ => .error .typeErr

/-- Result of `pool_transform`: the direct result of the single-worker
branch, the raw ordered list of per-chunk partial results, or (dead code in
the source, see line 192) an aggregated value. -/
inductive PTOut (β γ : Type) where
  | direct (b : β)
  | raw (rs : List β)
  | agg (g : γ)
deriving DecidableEq, Repr

/-- `chunk_size = n_rows // pool_size + int(n_rows % pool_size > 0)`
(line 186 of `_utils.py`). -/
def pt_chunk_size (n_rows pool_size : Nat) : Nat :=
  n_rows / pool_size + (if n_rows % pool_size > 0 then 1 else 0)

/-- The chunk generator of lines 187-190:
`(series_or_dataframe.iloc[i:i + chunk_size] for i in range(0, n_rows, chunk_size))`.
`range(0, n, step)` has `(n + step - 1) / step` elements for `step ≥ 1`, and
`iloc[i:i+cs]` is the clipped row slice `(l.drop i).take cs`. -/
def pt_chunks (l : List ρ) (chunk_size : Nat) : List (List ρ) :=
  (List.range' 0 ((l.length + chunk_size - 1) / chunk_size) chunk_size).map
    (fun i => (l.drop i).take chunk_size)

/-- `pool_transform(series_or_dataframe, function, pool_size, apply_func=False,
aggregate=None, **kwargs)` (lines 147-192 of `_utils.py`).

The table is a row list, the transformation a Lean function of the chunk and
of the forwarded keyword arguments; the `isinstance`/`isfunction` checks on
table, function and `apply_func` hold by typing.  `apply_func` is fixed to
`False`: the flag only swaps the per-chunk callable for
`partial(_wrap_apply, func=function, **kwargs)` and none of the verified
claims concerns it.  Line 172 reads
`if not aggregate is None or inspect.isfunction(aggregate): raise TypeError`,
which by operator precedence is `(aggregate is not None) or ...`, so every
non-`None` aggregate raises `TypeError`; the embedding reproduces this, and
keeps the consequently unreachable `aggregate(results)` branch of line 192. -/
def pool_transform (table : List ρ) (function : List ρ → κ → β) (pool_size : Int)
    (aggregate : Option (List β → γ)) (kwargs : κ) : Except PyError (PTOut β γ) :=
  if pool_size ≤ 0 then .error .valueErr
  else if aggregate.isSome then .error .typeErr
  else
    let pool_size' := min pool_size.toNat table.length
    if pool_size' < 2 then .ok (.direct (function table kwargs))
    else
      let chunk_size := pt_chunk_size table.length pool_size'
      let results := (pt_chunks table chunk_size).map (fun c => function c kwargs)
      match aggregate with
      | some g => .ok (.agg (g results))
      | Option.none => .ok (.raw results)

/-- The `level` argument of `Logger.log`, as far as its
`isinstance(level, str)` / `isinstance(level, int)` dispatch distinguishes
values. -/
inductive LevelArg where
  | str (s : String)
  | int (n : Int)
  | other
deriving Repr

/-- A message forwarded to `logging.Logger.log`: either the caller's message
or the interpolated "Invalid 'level' argument passed to 'log'" warning text. -/
inductive LogMsg where
  | user (s : String)
  | invalidLevelWarning
deriving DecidableEq, Repr

/-- The mutable state `Logger.log` reads: `self.level` and the severity
lookup table `self._levels`. -/
structure LoggerState where
  level : Int
  levels : List (String × Int)

/-- The `LOGGING_LEVELS` table of `_logger.py` (standard `logging` numeric
values: DEBUG 10, INFO 20, WARNING = WARN 30, ERROR 40, FATAL = CRITICAL 50). -/
def LOGGING_LEVELS : List (String × Int) :=
  [("debug", 10), ("info", 20), ("warning", 30), ("warn", 30),
   ("error", 40), ("fatal", 50), ("critical", 50)]

/-- `self._levels` right after `__init__`: a copy of `LOGGING_LEVELS` plus
the `'default'` entry mapped to `self.level` (lines 56-57 of `_logger.py`). -/
def init_levels (selfLevel : Int) : List (String × Int) :=
  LOGGING_LEVELS ++ [("default", selfLevel)]

/-- Python `dict.get(key, default)` on a string-keyed table. -/
def dictGetD (d : List (String × Int)) (k : String) (dflt : Int) : Int :=
  match d.find? (fun kv => kv.1 == k) with
  | some kv => kv.2
  | Option.none => dflt

/-- `Logger.log(level, msg, ...)` (lines 96-110 of `_logger.py`), as the
ordered list of `(level, message)` records it forwards to the base
`logging.Logger.log`.  A `str` level is resolved through
`self._levels.get(level, self.level)` — silently falling back to the
logger's default level; an `int` level passes through; anything else first
forwards a WARNING (numeric level 30) carrying the invalid-level text, then
logs the message at the default level. -/
def logger_log (st : LoggerState) (level : LevelArg) (msg : String) : List (Int × LogMsg) :=
  match level with
  | .str s => [(dictGetD st.levels s st.level, .user msg)]
  | .int n => [(n, .user msg)]
  | .other => [(30, .invalidLevelWarning), (st.level, .user msg)]

/-- Python `dict` lookup in the `has_run` table of `onetimemethod`,
keyed by `id(self)`. -/
def dictGetB (d : List (Nat × Bool)) (k : Nat) : Option Bool :=
  match d.find? (fun kv => kv.1 == k) with
  | some kv => some kv.2
  | Option.none => Option.none

/-- Python `dict.setdefault(key, value)`: return the stored value if the key
is present, otherwise insert `value` and return it. -/
def setdefaultB (d : List (Nat × Bool)) (k : Nat) (v : Bool) :
    List (Nat × Bool) × Bool :=
  match dictGetB d k with
  | some b => (d, b)
  | Option.none => (d ++ [(k, v)], v)

/-- Python `dict` assignment `d[k] = v`. -/
def dictSetB (d : List (Nat × Bool)) (k : Nat) (v : Bool) : List (Nat × Bool) :=
  if (d.find? (fun kv => kv.1 == k)).isSome then
    d.map (fun kv => if kv.1 == k then (k, v) else kv)
  else d ++ [(k, v)]

/-- One invocation of a method wrapped by `onetimemethod` (lines 200-216 of
`_utils.py`): `if has_run.setdefault(id(self), False): raise RuntimeError`,
else mark the instance and run the underlying method.  The instance is
identified by `id(self)`, the method's behaviour on it by `method`; the
`has_run` closure dictionary is threaded explicitly. -/
def onetime_call (method : Nat → β) (has_run : List (Nat × Bool)) (selfId : Nat) :
    List (Nat × Bool) × Except PyError β :=
  let sd := setdefaultB has_run selfId false
  if sd.2 then (sd.1, .error .runtimeErr)
  else (dictSetB sd.1 selfId true, .ok (method selfId))

/-- An object owning a `lazyproperty`: the state its method reads, and the
`instance.__dict__` slot the property caches its value in. -/
structure LazyObj (σ β : Type) where
  state : σ
  cache : Option β

/-- The `getter` of `lazyproperty` (lines 133-137 of `_utils.py`): if the
attribute name is not in `instance.__dict__`, evaluate the method on the
instance and store the result; return the stored value.  Returns the updated
object together with the value read. -/
def lazy_get (method : σ → β) (o : LazyObj σ β) : LazyObj σ β × β :=
  match o.cache with
  | some v => (o, v)
  | Option.none => (⟨o.state, some (method o.state)⟩, method o.state)

/-- The `deleter` of `lazyproperty` (lines 138-140): drop the cached value
(`instance.__dict__.pop(name, None)`). -/
def lazy_del (o : LazyObj σ β) : LazyObj σ β :=
  ⟨o.state, Option.none⟩

/-- Does a key segment carry an int (as opposed to a str)?  In the key of a
parity-`p` string, the segment at index `i` is an int exactly when
`i % 2 ≠ p`. -/
def segIsNum : Seg → Bool
  | .n _ => true
  | .s _ => false

/-- Whether a string's first character is a decimal digit — the `parity`
test of `_alphanum_key` (`false` for the empty string, where the Python code
raises instead). -/
def leadDigit (s : String) : Bool :=
  match s.data with
  | [] => false
  | c :: _ => c.isDigit

/-- The "key of `a` is ≤ key of `b`" relation the spec's sortedness property
speaks about: the alphanum key comparison succeeds and does not answer
"greater". -/
def keyLe (a b : String) : Prop :=
  alphanumCmp a b = .ok .lt ∨ alphanumCmp a b = .ok .eq

/-- Recursive form of the chunking loop of `pool_transform`: split off
`m + 1` rows at a time until the table is exhausted.  `pt_chunks l cs` with
`cs = m + 1` computes the same list (proved below); this form is convenient
for induction. -/
def chunksRec (m : Nat) : List ρ → List (List ρ)
  | [] => []
  | x :: xs => (x :: xs).take (m + 1) :: chunksRec m ((x :: xs).drop (m + 1))
termination_by l => l.length
decreasing_by simp; omega

/-! ## Basic lemmas about the alphanum embedding -/

theorem alphanum_key_of_ne_empty (s : String) (h : s ≠ "") :
    ∃ k, alphanum_key s = .ok k := by
  obtain ⟨cs⟩ := s
  match cs with
  | [] => exact absurd rfl h
  | c :: cs => exact ⟨_, rfl⟩

theorem pyStrList?_map_str (l : List String) :
    pyStrList? (l.map PyVal.str) = some l := by
  induction l with
  | nil => rfl
  | cons s rest ih => simp [pyStrList?, pyStr?, ih]

theorem mapKeysE_of_mem_empty (l : List String) (h : "" ∈ l) :
    mapKeysE l = .error .indexErr := by
  induction l with
  | nil => cases h
  | cons s rest ih =>
    by_cases hs : s = ""
    · subst hs; rfl
    · obtain ⟨k, hk⟩ := alphanum_key_of_ne_empty s hs
      have hmem : "" ∈ rest := by
        rcases List.mem_cons.mp h with h' | h'
        · exact absurd h'.symm hs
        · exact h'
      simp [mapKeysE, hk, ih hmem]

/-! ## Claim theorems: C10, C1, C3, C5, C6, C7 -/

/-- C10: for every list of strings containing the empty string,
`alphanum_sort` raises `IndexError`: `_alphanum_key` evaluates `string[0]`
unguardedly while `sorted` precomputes every key, so the call fails with
`IndexError` rather than sorting or raising `TypeError`. -/
theorem alphanum_sort_empty_string_indexerror (l : List String) (h : "" ∈ l) :
    alphanum_sort (.list (l.map PyVal.str)) = .error .indexErr := by
  simp [alphanum_sort, pyStrList?_map_str, mapKeysE_of_mem_empty l h]

/-- Witness for C10 at the concrete input `[""]`. -/
theorem alphanum_sort_empty_string_indexerror_witness :
    alphanum_sort (.list [PyVal.str ""]) = .error .indexErr :=
  alphanum_sort_empty_string_indexerror [""] (by simp)

/-- C1: the precedence slip in line 172 of `_utils.py`
(`if not aggregate is None or inspect.isfunction(aggregate)`) makes
`pool_transform` raise `TypeError` for every non-`None` aggregate, although
its own docstring offers `aggregate` as an optional aggregation function and
line 192 is written to apply it to the partial results.  Evaluating the code
on a 4-row table, 2 workers and a summing aggregator: it raises `TypeError`
instead of returning `sum([f(chunk1), f(chunk2)])`. -/
theorem pool_transform_aggregate_raises :
    pool_transform (List.range 4) (fun c (_ : Unit) => c.length) 2
      (some (fun rs => rs.sum)) () = .error .typeErr := by rfl

/-- C3: whenever the effective worker count `min(pool_size, len(table))` is
below 2, `pool_transform` returns exactly the transformation applied to the
whole table with the forwarded keyword arguments, unwrapped (lines 181-183
of `_utils.py`). -/
theorem pool_transform_direct_below_two {ρ κ β γ : Type} (l : List ρ)
    (f : List ρ → κ → β) (k : κ) (p : Int) (hp : 0 < p)
    (hw : min p.toNat l.length < 2) :
    pool_transform (γ := γ) l f p Option.none k = .ok (.direct (f l k)) := by
  unfold pool_transform
  rw [if_neg (by omega), if_neg (by simp), if_pos hw]

/-- Witness for C3: one worker on a 3-row table computes the row count of the
whole table directly. -/
theorem pool_transform_direct_below_two_witness :
    pool_transform (γ := Nat) [5, 6, 7] (fun c (_ : Unit) => c.length) 1
      Option.none () = .ok (.direct 3) :=
  pool_transform_direct_below_two [5, 6, 7] (fun c (_ : Unit) => c.length) ()
    1 (by decide) (by decide)

/-- C5 counterexample: the claim says an unrecognized string severity makes
the logger log a warning and substitute its default level.  On a logger with
default level 1 and the initial severity table, `log("bogus", msg)` forwards
exactly one record — the message at the default level — and no warning
record at all: the `str` branch of `Logger.log` falls back silently. -/
theorem logger_log_unknown_str_cex :
    logger_log ⟨1, init_levels 1⟩ (.str "bogus") "hi" = [(1, .user "hi")]
    ∧ ∀ r ∈ logger_log ⟨1, init_levels 1⟩ (.str "bogus") "hi",
        r.2 ≠ LogMsg.invalidLevelWarning := by
  constructor
  · rfl
  · decide

/-- C5 amended: an unrecognized string level makes `Logger.log` silently
substitute the logger's default level (no warning record); only a level that
is neither `int` nor `str` logs a WARNING record (the invalid-level text)
before logging the message at the default level. -/
theorem logger_log_fallback_amended (st : LoggerState) (s : String) (msg : String)
    (h : ∀ kv ∈ st.levels, kv.1 ≠ s) :
    logger_log st (.str s) msg = [(st.level, .user msg)]
    ∧ (∀ r ∈ logger_log st (.str s) msg, r.2 ≠ LogMsg.invalidLevelWarning)
    ∧ logger_log st .other msg
        = [(30, .invalidLevelWarning), (st.level, .user msg)] := by
  have hfind : st.levels.find? (fun kv => kv.1 == s) = Option.none := by
    apply List.find?_eq_none.mpr
    intro kv hkv
    simpa using h kv hkv
  refine ⟨?_, ?_, rfl⟩
  · simp [logger_log, dictGetD, hfind]
  · simp [logger_log, dictGetD, hfind]

/-- Witness for the amended C5 on a freshly initialised logger of default
level 1 and the unknown severity name "bogus". -/
theorem logger_log_fallback_amended_witness :
    logger_log ⟨1, init_levels 1⟩ (.str "bogus") "m" = [(1, .user "m")]
    ∧ (∀ r ∈ logger_log ⟨1, init_levels 1⟩ (.str "bogus") "m",
        r.2 ≠ LogMsg.invalidLevelWarning)
    ∧ logger_log ⟨1, init_levels 1⟩ .other "m"
        = [(30, .invalidLevelWarning), (1, .user "m")] :=
  logger_log_fallback_amended ⟨1, init_levels 1⟩ "bogus" "m" (by decide)

/-- C6: a method wrapped by `onetimemethod` runs and returns its result on
the first invocation for an instance, raises `RuntimeError` on the second
invocation for the same instance, and still runs once for a different
instance — the `has_run` dictionary is keyed by `id(self)`. -/
theorem onetimemethod_once {β : Type} (method : Nat → β) (i j : Nat) (hij : i ≠ j) :
    (onetime_call method [] i).2 = .ok (method i)
    ∧ (onetime_call method (onetime_call method [] i).1 i).2 = .error .runtimeErr
    ∧ (onetime_call method (onetime_call method [] i).1 j).2 = .ok (method j) := by
  have hji : (i == j) = false := by simpa using hij
  refine ⟨rfl, ?_, ?_⟩
  · simp [onetime_call, setdefaultB, dictGetB, dictSetB]
  · simp [onetime_call, setdefaultB, dictGetB, dictSetB, List.find?, hji]

/-- Witness for C6 with instances 0 and 1 and the identity method. -/
theorem onetimemethod_once_witness :
    (onetime_call (fun n => n) [] 0).2 = .ok 0
    ∧ (onetime_call (fun n => n) (onetime_call (fun n => n) [] 0).1 0).2
        = .error .runtimeErr
    ∧ (onetime_call (fun n => n) (onetime_call (fun n => n) [] 0).1 1).2 = .ok 1 :=
  onetimemethod_once (fun n => n) 0 1 (by decide)

/-- C7: a `lazyproperty` computes on first access and caches the value in
the instance dictionary; a later access returns the cached value unchanged
even after the underlying state has changed; deleting the cached value makes
the next access recompute from the current state, after which the new value
is cached again. -/
theorem lazyproperty_cache {σ β : Type} (method : σ → β) (s1 s2 : σ) :
    (lazy_get method ⟨s1, Option.none⟩).2 = method s1
    ∧ (lazy_get method ⟨s1, Option.none⟩).1.cache = some (method s1)
    ∧ (lazy_get method ⟨s2, (lazy_get method ⟨s1, Option.none⟩).1.cache⟩).2 = method s1
    ∧ (lazy_get method ⟨s2, (lazy_get method ⟨s1, Option.none⟩).1.cache⟩).1.cache
        = some (method s1)
    ∧ (lazy_get method (lazy_del ⟨s2, some (method s1)⟩)).2 = method s2
    ∧ (lazy_get method (lazy_del ⟨s2, some (method s1)⟩)).1.cache = some (method s2) := by
  simp [lazy_get, lazy_del]

/-! ## Comparator lemmas -/

theorem natCmp_swap (a b : Nat) : natCmp b a = (natCmp a b).swap := by
  unfold natCmp
  rcases Nat.lt_trichotomy a b with h | h | h
  · rw [if_neg (by omega), if_pos h, if_pos h]; rfl
  · rw [if_neg (by omega), if_neg (by omega), if_neg (by omega), if_neg (by omega)]; rfl
  · rw [if_pos h, if_neg (by omega), if_pos h]; rfl

theorem charCmp_swap (a b : Char) : charCmp b a = (charCmp a b).swap :=
  natCmp_swap a.toNat b.toNat

theorem lexCmp_swap (cmp : α → α → Ordering)
    (hsw : ∀ a b, cmp b a = (cmp a b).swap) :
    ∀ l1 l2, lexCmp cmp l2 l1 = (lexCmp cmp l1 l2).swap := by
  intro l1
  induction l1 with
  | nil => intro l2; cases l2 <;> rfl
  | cons x xs ih =>
    intro l2
    cases l2 with
    | nil => rfl
    | cons y ys =>
      simp only [lexCmp, hsw x y]
      cases h : cmp x y <;> simp [h, Ordering.swap, ih ys]

theorem strCmp_swap (a b : String) : strCmp b a = (strCmp a b).swap :=
  lexCmp_swap charCmp charCmp_swap a.data b.data

theorem segCmp_swap (a b : Seg) : segCmp b a = (segCmp a b).map Ordering.swap := by
  cases a <;> cases b <;> simp only [segCmp, Except.map] <;>
    first
    | rfl
    | exact congrArg Except.ok (strCmp_swap _ _)
    | exact congrArg Except.ok (natCmp_swap _ _)

theorem keyCmp_swap : ∀ k1 k2 : List Seg,
    keyCmp k2 k1 = (keyCmp k1 k2).map Ordering.swap := by
  intro k1
  induction k1 with
  | nil => intro k2; cases k2 <;> rfl
  | cons x xs ih =>
    intro k2
    cases k2 with
    | nil => rfl
    | cons y ys =>
      simp only [keyCmp, segCmp_swap x y]
      cases h : segCmp x y with
      | error e => simp [Except.map]
      | ok o => cases o <;> simp [Except.map, Ordering.swap, ih ys]

theorem alphanumCmp_swap_ok (a b : String) (o : Ordering)
    (h : alphanumCmp a b = .ok o) : alphanumCmp b a = .ok o.swap := by
  unfold alphanumCmp at h ⊢
  cases ha : alphanum_key a <;> cases hb : alphanum_key b <;>
    simp [ha, hb] at h ⊢
  rw [keyCmp_swap, h]
  rfl

theorem segCmp_ok_of_same (a b : Seg) (h : segIsNum a = segIsNum b) :
    ∃ o, segCmp a b = .ok o := by
  cases a <;> cases b <;> simp_all [segIsNum, segCmp]

theorem keyCmp_ok_of_aligned : ∀ k1 k2 : List Seg,
    (∀ i (h1 : i < k1.length) (h2 : i < k2.length),
      segIsNum (k1.get ⟨i, h1⟩) = segIsNum (k2.get ⟨i, h2⟩)) →
    ∃ o, keyCmp k1 k2 = .ok o := by
  intro k1
  induction k1 with
  | nil => intro k2 _; cases k2 <;> exact ⟨_, rfl⟩
  | cons x xs ih =>
    intro k2 h
    cases k2 with
    | nil => exact ⟨_, rfl⟩
    | cons y ys =>
      obtain ⟨o, ho⟩ := segCmp_ok_of_same x y
        (h 0 (Nat.succ_pos _) (Nat.succ_pos _))
      cases o with
      | eq =>
        obtain ⟨o', ho'⟩ := ih ys (fun i h1 h2 =>
          h (i + 1) (Nat.succ_lt_succ h1) (Nat.succ_lt_succ h2))
        exact ⟨o', by simp [keyCmp, ho, ho']⟩
      | lt => exact ⟨.lt, by simp [keyCmp, ho]⟩
      | gt => exact ⟨.gt, by simp [keyCmp, ho]⟩

/-! ## Insertion sort lemmas -/

theorem insertE_perm (x : String) : ∀ ys zs, insertE x ys = .ok zs →
    zs.Perm (x :: ys) := by
  intro ys
  induction ys with
  | nil =>
    intro zs h
    simp [insertE] at h
    subst h
    exact List.Perm.refl _
  | cons y ys ih =>
    intro zs h
    simp only [insertE] at h
    cases hc : alphanumCmp x y with
    | error e => rw [hc] at h; cases h
    | ok o =>
      rw [hc] at h
      cases o with
      | lt => cases h; exact List.Perm.refl _
      | eq => cases h; exact List.Perm.refl _
      | gt =>
        cases hz : insertE x ys with
        | error e => rw [hz] at h; cases h
        | ok zs' =>
          rw [hz] at h
          cases h
          exact ((ih zs' hz).cons y).trans (List.Perm.swap x y ys)

theorem sortE_perm : ∀ l out, sortE l = .ok out → out.Perm l := by
  intro l
  induction l with
  | nil => intro out h; cases h; exact List.Perm.refl _
  | cons x xs ih =>
    intro out h
    simp only [sortE] at h
    cases hs : sortE xs with
    | error e => rw [hs] at h; cases h
    | ok ys =>
      rw [hs] at h
      exact (insertE_perm x ys out h).trans ((ih ys hs).cons x)

theorem insertE_head (x : String) : ∀ ys zs, insertE x ys = .ok zs →
    zs.head? = some x ∨ zs.head? = ys.head? := by
  intro ys zs h
  cases ys with
  | nil => simp [insertE] at h; subst h; left; rfl
  | cons y ys =>
    simp only [insertE] at h
    cases hc : alphanumCmp x y with
    | error e => rw [hc] at h; cases h
    | ok o =>
      rw [hc] at h
      cases o with
      | lt => cases h; left; rfl
      | eq => cases h; left; rfl
      | gt =>
        cases hz : insertE x ys with
        | error e => rw [hz] at h; cases h
        | ok zs' => rw [hz] at h; cases h; right; rfl

theorem insertE_sorted (x : String) : ∀ ys zs, List.Chain' keyLe ys →
    insertE x ys = .ok zs → List.Chain' keyLe zs := by
  intro ys
  induction ys with
  | nil =>
    intro zs _ h
    simp [insertE] at h
    subst h
    simp
  | cons y ys ih =>
    intro zs hc h
    simp only [insertE] at h
    cases hcmp : alphanumCmp x y with
    | error e => rw [hcmp] at h; cases h
    | ok o =>
      rw [hcmp] at h
      cases o with
      | lt => cases h; exact List.Chain'.cons (Or.inl hcmp) hc
      | eq => cases h; exact List.Chain'.cons (Or.inr hcmp) hc
      | gt =>
        cases hz : insertE x ys with
        | error e => rw [hz] at h; cases h
        | ok zs' =>
          rw [hz] at h
          cases h
          have hys : List.Chain' keyLe ys := hc.tail
          have hzs' : List.Chain' keyLe zs' := ih zs' hys hz
          apply List.chain'_cons'.mpr
          refine ⟨?_, hzs'⟩
          intro z hz'
          rcases insertE_head x ys zs' hz with hh | hh
          · rw [hh] at hz'
            cases hz'
            exact Or.inl (alphanumCmp_swap_ok x y .gt hcmp)
          · rw [hh] at hz'
            exact (List.chain'_cons'.mp hc).1 z hz'

theorem sortE_sorted : ∀ l out, sortE l = .ok out → List.Chain' keyLe out := by
  intro l
  induction l with
  | nil => intro out h; cases h; simp
  | cons x xs ih =>
    intro out h
    simp only [sortE] at h
    cases hs : sortE xs with
    | error e => rw [hs] at h; cases h
    | ok ys =>
      rw [hs] at h
      exact insertE_sorted x ys out (ih ys hs) h

theorem sortE_of_sorted : ∀ l, List.Chain' keyLe l → sortE l = .ok l := by
  intro l
  induction l with
  | nil => intro _; rfl
  | cons x xs ih =>
    intro hc
    simp only [sortE, ih hc.tail]
    cases xs with
    | nil => rfl
    | cons y ys =>
      rcases (List.chain'_cons.mp hc).1 with hcmp | hcmp <;>
        simp [insertE, hcmp]

theorem insertE_ok_of_cmp (x : String) : ∀ ys,
    (∀ y ∈ ys, ∃ o, alphanumCmp x y = .ok o) → ∃ zs, insertE x ys = .ok zs := by
  intro ys
  induction ys with
  | nil => intro _; exact ⟨[x], rfl⟩
  | cons y ys ih =>
    intro h
    obtain ⟨o, ho⟩ := h y (List.mem_cons_self y ys)
    cases o with
    | lt => exact ⟨x :: y :: ys, by simp [insertE, ho]⟩
    | eq => exact ⟨x :: y :: ys, by simp [insertE, ho]⟩
    | gt =>
      obtain ⟨zs', hz⟩ := ih (fun z hz => h z (List.mem_cons_of_mem y hz))
      exact ⟨y :: zs', by simp [insertE, ho, hz, Except.map]⟩

theorem sortE_ok_of_cmp : ∀ l : List String,
    (∀ a ∈ l, ∀ b ∈ l, ∃ o, alphanumCmp a b = .ok o) →
    ∃ out, sortE l = .ok out := by
  intro l
  induction l with
  | nil => intro _; exact ⟨[], rfl⟩
  | cons x xs ih =>
    intro h
    obtain ⟨ys, hys⟩ := ih (fun a ha b hb =>
      h a (List.mem_cons_of_mem x ha) b (List.mem_cons_of_mem x hb))
    obtain ⟨zs, hzs⟩ := insertE_ok_of_cmp x ys (fun y hy =>
      h x (List.mem_cons_self x xs) y
        (List.mem_cons_of_mem x ((sortE_perm xs ys hys).mem_iff.mp hy)))
    exact ⟨zs, by simp [sortE, hys, hzs]⟩

/-! ## Key structure: the segment type at index i is fixed by i and the
string's leading-character class -/

theorem alphanum_key_struct (s : String) (k : List Seg) (h : alphanum_key s = .ok k)
    (i : Nat) (hi : i < k.length) :
    segIsNum (k.get ⟨i, hi⟩)
      = decide (i % 2 ≠ (if leadDigit s then 1 else 0)) := by
  obtain ⟨cs⟩ := s
  cases cs with
  | nil => cases h
  | cons c cs =>
    have hk : k = ((reSplitDigits (c :: cs)).drop (if c.isDigit then 1 else 0)).enum.map
        (fun ix => if ix.1 % 2 ≠ (if c.isDigit then 1 else 0) then Seg.n (natOfDigits ix.2)
          else Seg.s (String.mk ix.2)) := by
      simpa [alphanum_key] using h.symm
    subst hk
    have hld : leadDigit (String.mk (c :: cs)) = c.isDigit := rfl
    rw [hld]
    simp only [List.get_eq_getElem, List.getElem_map, List.getElem_enum]
    by_cases hp : i % 2 ≠ (if c.isDigit then 1 else 0)
    · simp [hp, segIsNum]
    · simp [hp, segIsNum]

theorem alphanumCmp_ok_of_sameClass (a b : String) (ha : a ≠ "") (hb : b ≠ "")
    (h : leadDigit a = leadDigit b) : ∃ o, alphanumCmp a b = .ok o := by
  obtain ⟨ka, hka⟩ := alphanum_key_of_ne_empty a ha
  obtain ⟨kb, hkb⟩ := alphanum_key_of_ne_empty b hb
  obtain ⟨o, ho⟩ := keyCmp_ok_of_aligned ka kb (fun i h1 h2 => by
    rw [alphanum_key_struct a ka hka i h1, alphanum_key_struct b kb hkb i h2, h])
  exact ⟨o, by simp [alphanumCmp, hka, hkb, ho]⟩

theorem mapKeysE_ok_of_ne_empty : ∀ l : List String, (∀ s ∈ l, s ≠ "") →
    ∃ ks, mapKeysE l = .ok ks := by
  intro l
  induction l with
  | nil => intro _; exact ⟨[], rfl⟩
  | cons s rest ih =>
    intro h
    obtain ⟨k, hk⟩ := alphanum_key_of_ne_empty s (h s (List.mem_cons_self s rest))
    obtain ⟨ks, hks⟩ := ih (fun t ht => h t (List.mem_cons_of_mem s ht))
    exact ⟨k :: ks, by simp [mapKeysE, hk, hks]⟩

theorem pyStrList?_eq_none (l : List PyVal) (h : ∃ x ∈ l, pyStr? x = Option.none) :
    pyStrList? l = Option.none := by
  induction l with
  | nil => obtain ⟨x, hx, _⟩ := h; cases hx
  | cons v vs ih =>
    obtain ⟨x, hx, hxn⟩ := h
    rcases List.mem_cons.mp hx with rfl | hx'
    · simp [pyStrList?, hxn]
    · cases hv : pyStr? v
      · simp [pyStrList?, hv]
      · simp [pyStrList?, hv, ih ⟨x, hx', hxn⟩]

/-! ## Claim theorems: C4, C8, C9 -/

/-- C4 counterexample: on the list of non-empty strings `["a", "1"]` the call
raises `TypeError` instead of returning a sorted permutation — the key of
"a" is `['a']` and the key of "1" is `[1, '']`, and Python 3 cannot order
`'a'` against `1`.  So the claim's universal statement over all lists of
non-empty strings is false. -/
theorem alphanum_sort_mixed_cex :
    alphanum_sort (.list [PyVal.str "a", PyVal.str "1"]) = .error .typeErr
    ∧ ∀ v, alphanum_sort (.list [PyVal.str "a", PyVal.str "1"]) ≠ .ok v := by
  refine ⟨rfl, fun v hv => ?_⟩
  rw [show alphanum_sort (.list [PyVal.str "a", PyVal.str "1"])
      = .error .typeErr from rfl] at hv
  cases hv

/-- C4 amended: restricted to lists of non-empty strings of one leading
class (all starting with a digit, or all not), `alphanum_sort` returns a
permutation of the input in which every adjacent pair of strings has
non-decreasing alphanum keys; the example input `["img10", "img2", "img1"]`
sorts to `["img1", "img2", "img10"]`. -/
theorem alphanum_sort_sorted_perm_amended (l : List String)
    (h1 : ∀ s ∈ l, s ≠ "")
    (h2 : (∀ s ∈ l, leadDigit s = true) ∨ (∀ s ∈ l, leadDigit s = false)) :
    (∃ out, alphanum_sort (.list (l.map PyVal.str)) = .ok (.list (out.map PyVal.str))
      ∧ out.Perm l ∧ List.Chain' keyLe out)
    ∧ alphanum_sort (.list [PyVal.str "img10", PyVal.str "img2", PyVal.str "img1"])
        = .ok (.list [PyVal.str "img1", PyVal.str "img2", PyVal.str "img10"]) := by
  refine ⟨?_, rfl⟩
  obtain ⟨ks, hks⟩ := mapKeysE_ok_of_ne_empty l h1
  have hcmp : ∀ a ∈ l, ∀ b ∈ l, ∃ o, alphanumCmp a b = .ok o := by
    intro a ha b hb
    apply alphanumCmp_ok_of_sameClass a b (h1 a ha) (h1 b hb)
    rcases h2 with h2 | h2
    · rw [h2 a ha, h2 b hb]
    · rw [h2 a ha, h2 b hb]
  obtain ⟨out, hout⟩ := sortE_ok_of_cmp l hcmp
  exact ⟨out, by simp [alphanum_sort, pyStrList?_map_str, hks, hout],
    sortE_perm l out hout, sortE_sorted l out hout⟩

/-- Witness for the amended C4 at the spec's own example list. -/
theorem alphanum_sort_sorted_perm_amended_witness :
    (∃ out, alphanum_sort (.list (["img10", "img2", "img1"].map PyVal.str))
        = .ok (.list (out.map PyVal.str))
      ∧ out.Perm ["img10", "img2", "img1"] ∧ List.Chain' keyLe out)
    ∧ alphanum_sort (.list [PyVal.str "img10", PyVal.str "img2", PyVal.str "img1"])
        = .ok (.list [PyVal.str "img1", PyVal.str "img2", PyVal.str "img10"]) :=
  alphanum_sort_sorted_perm_amended ["img10", "img2", "img1"]
    (by decide) (Or.inr (by decide))

/-- C8 counterexample: `["b", "2"]` is a list of strings — a valid sequence
of strings — yet `alphanum_sort` raises `TypeError` while comparing the keys
`['b']` and `[2, '']`.  So "fails with a type error exactly when the input
is not a sequence of strings" is false: the "only if" direction does not
hold. -/
theorem alphanum_sort_typeerror_cex :
    pyStrList? [PyVal.str "b", PyVal.str "2"] = some ["b", "2"]
    ∧ alphanum_sort (.list [PyVal.str "b", PyVal.str "2"]) = .error .typeErr :=
  ⟨rfl, rfl⟩

/-- C8 amended: `alphanum_sort` raises `TypeError` whenever its input is not
a sequence of strings — for every non-list value, and for every list with at
least one non-string element, before any sorting happens; a `TypeError` can
however also arise later, while sorting a genuine list of strings of mixed
leading-character classes. -/
theorem alphanum_sort_typeerror_amended (v : PyVal) (l : List PyVal)
    (hv : ∀ l', v ≠ .list l')
    (hl : ∃ x ∈ l, pyStr? x = Option.none) :
    alphanum_sort v = .error .typeErr
    ∧ alphanum_sort (.list l) = .error .typeErr := by
  constructor
  · cases v with
    | str s => rfl
    | int n => rfl
    | list l' => exact absurd rfl (hv l')
    | none => rfl
    | other => rfl
  · simp [alphanum_sort, pyStrList?_eq_none l hl]

/-- Witness for the amended C8: the non-list input `3` and the list
`["a", 1]` containing a non-string both raise `TypeError`. -/
theorem alphanum_sort_typeerror_amended_witness :
    alphanum_sort (.int 3) = .error .typeErr
    ∧ alphanum_sort (.list [PyVal.str "a", PyVal.int 1]) = .error .typeErr :=
  alphanum_sort_typeerror_amended (.int 3) [PyVal.str "a", PyVal.int 1]
    (fun l' h => PyVal.noConfusion h)
    ⟨PyVal.int 1, by simp, rfl⟩

/-- C9: `alphanum_sort` is idempotent — whenever it succeeds on a list of
non-empty strings, running it again on its output returns that output
unchanged (an already-sorted list is left as it is by Python's stable
sort). -/
theorem alphanum_sort_idempotent (l : List String) (out : PyVal)
    (h1 : ∀ s ∈ l, s ≠ "")
    (h : alphanum_sort (.list (l.map PyVal.str)) = .ok out) :
    alphanum_sort out = .ok out := by
  simp only [alphanum_sort, pyStrList?_map_str] at h
  cases hks : mapKeysE l with
  | error e => rw [hks] at h; cases h
  | ok ks =>
    rw [hks] at h
    cases hout : sortE l with
    | error e => rw [hout] at h; cases h
    | ok res =>
      rw [hout] at h
      cases h
      have hperm : res.Perm l := sortE_perm l res hout
      have h1' : ∀ s ∈ res, s ≠ "" := fun s hs => h1 s (hperm.mem_iff.mp hs)
      obtain ⟨ks2, hks2⟩ := mapKeysE_ok_of_ne_empty res h1'
      have hsorted : sortE res = .ok res :=
        sortE_of_sorted res (sortE_sorted l res hout)
      simp [alphanum_sort, pyStrList?_map_str, hks2, hsorted]

/-- Witness for C9: re-sorting the sorted output of `["b", "a"]` returns it
unchanged. -/
theorem alphanum_sort_idempotent_witness :
    alphanum_sort (.list [PyVal.str "a", PyVal.str "b"])
      = .ok (.list [PyVal.str "a", PyVal.str "b"]) :=
  alphanum_sort_idempotent ["b", "a"] (.list [PyVal.str "a", PyVal.str "b"])
    (by decide) (by rfl)

/-! ## Chunking lemmas for pool_transform -/

theorem chunksRec_flatten (m : Nat) : ∀ (n : Nat) (l : List ρ), l.length ≤ n →
    (chunksRec m l).flatten = l := by
  intro n
  induction n with
  | zero =>
    intro l hl
    have : l = [] := List.length_eq_zero.mp (Nat.le_zero.mp hl)
    subst this
    simp [chunksRec]
  | succ n ih =>
    intro l hl
    cases l with
    | nil => simp [chunksRec]
    | cons x xs =>
      simp only [List.length_cons] at hl
      rw [chunksRec, List.flatten_cons,
        ih ((x :: xs).drop (m + 1)) (by simp; omega)]
      exact List.take_append_drop (m + 1) (x :: xs)

theorem map_range'_shift (f : Nat → α) : ∀ (m s step : Nat),
    (List.range' (s + step) m step).map f
      = (List.range' s m step).map (fun i => f (i + step)) := by
  intro m
  induction m with
  | zero => intro s step; rfl
  | succ m ih =>
    intro s step
    rw [List.range'_succ, List.range'_succ, List.map_cons, List.map_cons,
      ih (s + step) step]

theorem ceil_div_succ (N cs : Nat) (hN : 0 < N) (hcs : 0 < cs) :
    (N + cs - 1) / cs = ((N - cs) + cs - 1) / cs + 1 := by
  rcases le_or_lt N cs with h | h
  · have h1 : N - cs = 0 := by omega
    have h2 : (0 + cs - 1) / cs = 0 := Nat.div_eq_of_lt (by omega)
    have h3 : (N + cs - 1) / cs = 1 :=
      Nat.div_eq_of_lt_le (by omega) (by omega)
    rw [h1, h2, h3]
  · have heq : N + cs - 1 = ((N - cs) + cs - 1) + cs := by omega
    rw [heq, Nat.add_div_right _ hcs]

theorem pt_chunks_eq_chunksRec (cs : Nat) (hcs : 0 < cs) :
    ∀ (n : Nat) (l : List ρ), l.length ≤ n →
    pt_chunks l cs = chunksRec (cs - 1) l := by
  intro n
  induction n with
  | zero =>
    intro l hl
    have : l = [] := List.length_eq_zero.mp (Nat.le_zero.mp hl)
    subst this
    simp [pt_chunks, chunksRec, Nat.div_eq_of_lt (by omega : cs - 1 < cs)]
  | succ n ih =>
    intro l hl
    cases l with
    | nil =>
      simp [pt_chunks, chunksRec, Nat.div_eq_of_lt (by omega : cs - 1 < cs)]
    | cons x xs =>
      have hN : 0 < (x :: xs).length := by simp
      rw [pt_chunks, ceil_div_succ (x :: xs).length cs hN hcs, List.range'_succ,
        List.map_cons]
      have hdrop : ((x :: xs).drop cs).length = (x :: xs).length - cs := by
        simp
      have htail : (List.range' (0 + cs) (((x :: xs).length - cs + cs - 1) / cs) cs).map
            (fun i => ((x :: xs).drop i).take cs)
          = pt_chunks ((x :: xs).drop cs) cs := by
        rw [map_range'_shift, pt_chunks, hdrop]
        apply List.map_congr_left
        intro i _
        simp [List.drop_drop, Nat.add_comm]
      rw [htail, ih ((x :: xs).drop cs)
        (by simp only [List.length_drop, List.length_cons] at hl ⊢; omega)]
      have hm : cs - 1 + 1 = cs := by omega
      rw [chunksRec, hm]
      simp

theorem pt_chunk_size_pos (N w : Nat) (h2 : 2 ≤ w) (hw : w ≤ N) :
    0 < pt_chunk_size N w := by
  unfold pt_chunk_size
  have : 1 ≤ N / w := (Nat.one_le_div_iff (by omega)).mpr hw
  omega

theorem le_mul_pt_chunk_size (N w : Nat) (h2 : 2 ≤ w) (_hw : w ≤ N) :
    N ≤ pt_chunk_size N w * w := by
  have hmod := Nat.div_add_mod N w
  have hr : N % w < w := Nat.mod_lt _ (by omega)
  unfold pt_chunk_size
  by_cases h0 : N % w > 0
  · rw [if_pos h0, Nat.add_mul, Nat.one_mul, Nat.mul_comm]
    omega
  · rw [if_neg h0, Nat.add_zero, Nat.mul_comm]
    omega

theorem pt_chunk_count_le (N w : Nat) (h2 : 2 ≤ w) (hw : w ≤ N) :
    (N + pt_chunk_size N w - 1) / pt_chunk_size N w ≤ w := by
  have hcs := pt_chunk_size_pos N w h2 hw
  have hle := le_mul_pt_chunk_size N w h2 hw
  rw [Nat.div_le_iff_le_mul_add_pred hcs]
  omega

/-! ## Claim theorems: C2 -/

/-- C2 counterexample: a 10-row table with 4 effective workers.  The code
computes `chunk_size = ceil(10/4) = 3` and produces 4 chunks of sizes
`[3, 3, 3, 1]`, but `ceil(L/workers) = ceil(10/4) = 3`: the chunk count is
not `ceil(L/workers)` as claimed. -/
theorem pool_transform_chunk_count_cex :
    pool_transform (List.range 10) (fun c (_ : Unit) => c.length) 4
      (Option.none : Option (List Nat → Nat)) () = .ok (.raw [3, 3, 3, 1])
    ∧ (pt_chunks (List.range 10) (pt_chunk_size 10 4)).length = 4
    ∧ ¬ ((pt_chunks (List.range 10) (pt_chunk_size 10 4)).length
          = (10 + 4 - 1) / 4) := by
  refine ⟨rfl, rfl, ?_⟩
  decide

/-- C2 amended: for a table of length `L` and effective worker count
`w = min(pool_size, L) ≥ 2`, `pool_transform` maps the transformation over
`ceil(L / chunk_size)` contiguous chunks, where `chunk_size = ceil(L/w)` —
a count that can exceed `ceil(L/w)` but never the configured worker count —
whose lengths sum to `L` and whose in-order concatenation is the original
table. -/
theorem pool_transform_partition_amended {ρ κ β γ : Type} (l : List ρ)
    (f : List ρ → κ → β) (k : κ) (p : Int)
    (hp : 2 ≤ min p.toNat l.length) :
    pool_transform (γ := γ) l f p Option.none k
      = .ok (.raw ((pt_chunks l (pt_chunk_size l.length (min p.toNat l.length))).map
          (fun c => f c k)))
    ∧ (pt_chunks l (pt_chunk_size l.length (min p.toNat l.length))).flatten = l
    ∧ ((pt_chunks l (pt_chunk_size l.length (min p.toNat l.length))).map
        List.length).sum = l.length
    ∧ (pt_chunks l (pt_chunk_size l.length (min p.toNat l.length))).length
        = (l.length + pt_chunk_size l.length (min p.toNat l.length) - 1)
            / pt_chunk_size l.length (min p.toNat l.length)
    ∧ (pt_chunks l (pt_chunk_size l.length (min p.toNat l.length))).length
        ≤ p.toNat := by
  have h2 : 2 ≤ min p.toNat l.length := hp
  have hwN : min p.toNat l.length ≤ l.length := Nat.min_le_right _ _
  have hcs : 0 < pt_chunk_size l.length (min p.toNat l.length) :=
    pt_chunk_size_pos _ _ h2 hwN
  have hflat : (pt_chunks l (pt_chunk_size l.length (min p.toNat l.length))).flatten
      = l := by
    rw [pt_chunks_eq_chunksRec _ hcs l.length l (le_refl _)]
    exact chunksRec_flatten _ l.length l (le_refl _)
  have hcount : (pt_chunks l (pt_chunk_size l.length (min p.toNat l.length))).length
      = (l.length + pt_chunk_size l.length (min p.toNat l.length) - 1)
          / pt_chunk_size l.length (min p.toNat l.length) := by
    simp [pt_chunks]
  refine ⟨?_, hflat, ?_, hcount, ?_⟩
  · unfold pool_transform
    rw [if_neg (by omega), if_neg (by simp)]
    simp only []
    rw [if_neg (by omega)]
  · rw [← List.length_flatten, hflat]
  · rw [hcount]
    exact le_trans (pt_chunk_count_le _ _ h2 hwN) (Nat.min_le_left _ _)

/-- Witness for the amended C2: a 5-row table with 2 workers splits into
`ceil(5/ceil(5/2)) = 2` chunks `[[0,1,2],[3,4]]`. -/
theorem pool_transform_partition_amended_witness :
    pool_transform (γ := Nat) (List.range 5) (fun c (_ : Unit) => c.length) 2
        Option.none ()
      = .ok (.raw ((pt_chunks (List.range 5)
          (pt_chunk_size (List.range 5).length (min (2 : Int).toNat
            (List.range 5).length))).map (fun c => c.length)))
    ∧ (pt_chunks (List.range 5) (pt_chunk_size (List.range 5).length
        (min (2 : Int).toNat (List.range 5).length))).flatten = List.range 5
    ∧ ((pt_chunks (List.range 5) (pt_chunk_size (List.range 5).length
        (min (2 : Int).toNat (List.range 5).length))).map List.length).sum
        = (List.range 5).length
    ∧ (pt_chunks (List.range 5) (pt_chunk_size (List.range 5).length
        (min (2 : Int).toNat (List.range 5).length))).length
        = ((List.range 5).length + pt_chunk_size (List.range 5).length
            (min (2 : Int).toNat (List.range 5).length) - 1)
          / pt_chunk_size (List.range 5).length
            (min (2 : Int).toNat (List.range 5).length)
    ∧ (pt_chunks (List.range 5) (pt_chunk_size (List.range 5).length
        (min (2 : Int).toNat (List.range 5).length))).length ≤ (2 : Int).toNat :=
  pool_transform_partition_amended (List.range 5) (fun c (_ : Unit) => c.length)
    () 2 (by decide)
